import Mathlib

/-!
Verification of the task-tracker core (Task record codec and plain-text task
store) of the `on_job` repository.

Strings of the Rust source are modelled as `List Char`.  `str::trim`,
`str::trim_matches('|')`, `str::split` on one- and two-character patterns are
modelled by executable functions below.  `chrono::DateTime<Utc>` is modelled by
a civil-time record (`CivilTime`), `DateTime::to_rfc3339` by `renderRfc3339`,
and `DateTime::parse_from_rfc3339(..).to_utc()` by `parseRfc3339Off` followed
by `toUtc`.  The RFC 3339 model covers four-digit years (the range of the
RFC 3339 grammar); chrono's leap-second representation (second = 60) is not
modelled, and `padDigits` zero-pads to the exact field width.
-/

namespace OnJob

/-- Whitespace left-trim, modelling the leading half of `str::trim`. -/
def trimL (s : List Char) : List Char := s.dropWhile Char.isWhitespace

/-- Whitespace right-trim, modelling the trailing half of `str::trim`. -/
def trimR (s : List Char) : List Char := (s.reverse.dropWhile Char.isWhitespace).reverse

/-- `str::trim`: remove leading and trailing whitespace. -/
def trim (s : List Char) : List Char := trimR (trimL s)

/-- `str::trim_matches('|')`: remove all leading and trailing pipe characters. -/
def trimPipes (s : List Char) : List Char :=
  ((s.dropWhile (fun c => c = '|')).reverse.dropWhile (fun c => c = '|')).reverse

/-- `str::split(sep)` for a single-character pattern: `n` separators give
`n + 1` pieces, the empty string gives one empty piece. -/
def splitChar (sep : Char) : List Char → List (List Char)
  | [] => [[]]
  | c :: cs =>
    if c = sep then [] :: splitChar sep cs
    else
      match splitChar sep cs with
      | [] => [[c]]
      | p :: ps => (c :: p) :: ps

/-- `str::split(", ")`: split on the two-character separator comma-space,
leftmost occurrences first (the pattern cannot overlap itself). -/
def splitCommaSpace : List Char → List (List Char)
  | [] => [[]]
  | [c] => [[c]]
  | c1 :: c2 :: rest =>
    if c1 = ',' ∧ c2 = ' ' then [] :: splitCommaSpace rest
    else
      match splitCommaSpace (c2 :: rest) with
      | [] => [[c1]]
      | p :: ps => (c1 :: p) :: ps

/-- The two-character tag separator `", "`. -/
def commaSpace : List Char := [',', ' ']

/-- Numeric value of a decimal digit character. -/
def digitVal (c : Char) : Nat := c.toNat - 48

/-- The decimal digit character for `d < 10`. -/
def digitChar (d : Nat) : Char := Char.ofNat (48 + d)

/-- Zero-padded fixed-width decimal rendering, most significant digit first
(chrono zero-pads each RFC 3339 numeric field to its width). -/
def padDigits : Nat → Nat → List Char
  | 0, _ => []
  | w + 1, n => digitChar (n / 10 ^ w) :: padDigits w (n % 10 ^ w)

/-- Value of a list of decimal digit characters, most significant first. -/
def digitsVal (ds : List Char) : Nat := ds.foldl (fun a c => a * 10 + digitVal c) 0

/-- chrono `ParseError` kinds reachable through RFC 3339 parsing. -/
inductive ChronoParseError where
  | tooShort
  | tooLong
  | invalid
  | outOfRange
deriving DecidableEq

/-- Rust `std::str::ParseBoolError` (an opaque unit struct). -/
inductive ParseBoolError where
  | mk
deriving DecidableEq

/-- `ParseTaskError` from `task/mod.rs`. -/
inductive ParseTaskError where
  | parseBool (e : ParseBoolError)
  | invalidTaskFormat
  | invalidDateFormat (e : ChronoParseError)
deriving DecidableEq

/-- The civil-time components of a `chrono::DateTime<Utc>` value. -/
structure CivilTime where
  year : Int
  month : Nat
  day : Nat
  hour : Nat
  minute : Nat
  second : Nat
  nano : Nat
deriving DecidableEq

/-- Gregorian leap-year test. -/
def isLeapYear (y : Int) : Bool :=
  (decide (y % 4 = 0) && !decide (y % 100 = 0)) || decide (y % 400 = 0)

/-- Number of days in a month. -/
def daysInMonth (y : Int) (m : Nat) : Nat :=
  if m = 2 then (if isLeapYear y then 29 else 28)
  else if m = 4 ∨ m = 6 ∨ m = 9 ∨ m = 11 then 30
  else 31

/-- Calendar range validation performed by chrono when a parsed date and time
are materialised (year digits are already bounded by the parse). -/
def civilOkB (c : CivilTime) : Bool :=
  decide (1 ≤ c.month) && decide (c.month ≤ 12) &&
  decide (1 ≤ c.day) && decide (c.day ≤ daysInMonth c.year c.month) &&
  decide (c.hour ≤ 23) && decide (c.minute ≤ 59) && decide (c.second ≤ 59)

/-- Read exactly `w` decimal digits, accumulating into `acc`; premature end of
input is `TOO_SHORT`, a non-digit is `INVALID`. -/
def readDigitsE : Nat → Nat → List Char → Except ChronoParseError (Nat × List Char)
  | 0, acc, s => .ok (acc, s)
  | _ + 1, _, [] => .error .tooShort
  | w + 1, acc, c :: s =>
    if c.isDigit then readDigitsE w (acc * 10 + digitVal c) s else .error .invalid

/-- Expect one literal character. -/
def expectCh (c : Char) : List Char → Except ChronoParseError (List Char)
  | [] => .error .tooShort
  | x :: s => if x = c then .ok s else .error .invalid

/-- Optional fractional-second part: a dot followed by decimal digits; the
first nine digits give the nanosecond value, further digits are ignored
(as chrono does).  Returns nanoseconds and the rest of the input. -/
def parseFrac : List Char → Except ChronoParseError (Nat × List Char)
  | [] => .ok (0, [])
  | c :: rest =>
    if c = '.' then
      let ds := rest.takeWhile Char.isDigit
      if ds.isEmpty then .error .invalid
      else .ok (digitsVal (ds.take 9) * 10 ^ (9 - min ds.length 9), rest.dropWhile Char.isDigit)
    else .ok (0, c :: rest)

/-- Numeric `HH:MM` part of an RFC 3339 offset, in minutes with `sign`. -/
def parseOffsetNum (sign : Int) (s : List Char) : Except ChronoParseError (Int × List Char) := do
  let (hh, s) ← readDigitsE 2 0 s
  let s ← expectCh ':' s
  let (mm, s) ← readDigitsE 2 0 s
  if hh ≤ 23 ∧ mm ≤ 59 then .ok (sign * (hh * 60 + mm), s) else .error .outOfRange

/-- RFC 3339 time offset: `Z`, `z`, or `±HH:MM`; value in minutes. -/
def parseOffset : List Char → Except ChronoParseError (Int × List Char)
  | [] => .error .tooShort
  | c :: rest =>
    if c = 'Z' ∨ c = 'z' then .ok (0, rest)
    else if c = '+' then parseOffsetNum 1 rest
    else if c = '-' then parseOffsetNum (-1) rest
    else .error .invalid

/-- `DateTime::parse_from_rfc3339`: parse
`YYYY-MM-DDTHH:MM:SS[.frac]offset`, validating calendar ranges; the result is
the civil time as written plus the offset in minutes. -/
def parseRfc3339Off (s : List Char) : Except ChronoParseError (CivilTime × Int) := do
  let (y, s) ← readDigitsE 4 0 s
  let s ← expectCh '-' s
  let (mo, s) ← readDigitsE 2 0 s
  let s ← expectCh '-' s
  let (dy, s) ← readDigitsE 2 0 s
  let s ← expectCh 'T' s
  let (hh, s) ← readDigitsE 2 0 s
  let s ← expectCh ':' s
  let (mi, s) ← readDigitsE 2 0 s
  let s ← expectCh ':' s
  let (se, s) ← readDigitsE 2 0 s
  let (na, s) ← parseFrac s
  let (off, s) ← parseOffset s
  if s = [] then
    let c : CivilTime := ⟨(y : Int), mo, dy, hh, mi, se, na⟩
    if civilOkB c then .ok (c, off) else .error .outOfRange
  else .error .tooLong

/-- Days since 1970-01-01 of a civil date (Gregorian, proleptic). -/
def daysFromCivil (y : Int) (m d : Nat) : Int :=
  let yy : Int := if m ≤ 2 then y - 1 else y
  let era : Int := yy.fdiv 400
  let yoe : Int := yy - era * 400
  let mp : Int := ((m : Int) + 9).emod 12
  let doy : Int := (153 * mp + 2).ediv 5 + (d : Int) - 1
  let doe : Int := yoe * 365 + yoe.ediv 4 - yoe.ediv 100 + doy
  era * 146097 + doe - 719468

/-- Civil date of a day count since 1970-01-01 (inverse of `daysFromCivil`). -/
def civilFromDays (z0 : Int) : Int × Nat × Nat :=
  let z := z0 + 719468
  let era : Int := z.fdiv 146097
  let doe : Int := z - era * 146097
  let yoe : Int := (doe - doe.ediv 1460 + doe.ediv 36524 - doe.ediv 146096).ediv 365
  let y : Int := yoe + era * 400
  let doy : Int := doe - (365 * yoe + yoe.ediv 4 - yoe.ediv 100)
  let mp : Int := (5 * doy + 2).ediv 153
  let d : Int := doy - (153 * mp + 2).ediv 5 + 1
  let m : Int := mp + (if mp < 10 then 3 else -9)
  (y + (if m ≤ 2 then 1 else 0), m.toNat, d.toNat)

/-- Shift a civil time by `-offMin` minutes (seconds and nanoseconds are
unaffected since RFC 3339 offsets are whole minutes). -/
def shiftCivil (c : CivilTime) (offMin : Int) : CivilTime :=
  let tot : Int := daysFromCivil c.year c.month c.day * 1440 +
    ((c.hour * 60 + c.minute : Nat) : Int) - offMin
  let rem : Nat := (tot.emod 1440).toNat
  let ymd := civilFromDays (tot.ediv 1440)
  ⟨ymd.1, ymd.2.1, ymd.2.2, rem / 60, rem % 60, c.second, c.nano⟩

/-- `DateTime<FixedOffset>::to_utc()`: convert parsed components at the given
offset to UTC components (identity at offset zero). -/
def toUtc (c : CivilTime) (offMin : Int) : CivilTime :=
  if offMin = 0 then c else shiftCivil c offMin

/-- Fractional-second rendering of `to_rfc3339` (`SecondsFormat::AutoSi`):
nothing when zero, otherwise 3, 6 or 9 digits. -/
def renderFrac (nano : Nat) : List Char :=
  if nano = 0 then []
  else if nano % 1000000 = 0 then '.' :: padDigits 3 (nano / 1000000)
  else if nano % 1000 = 0 then '.' :: padDigits 6 (nano / 1000)
  else '.' :: padDigits 9 nano

/-- Year rendering; the modelled domain is four-digit years, negative years
keep a sign for totality. -/
def renderYear (y : Int) : List Char :=
  if y < 0 then '-' :: padDigits 4 y.natAbs else padDigits 4 y.toNat

/-- `DateTime<Utc>::to_rfc3339()`: UTC civil time with a `+00:00` offset. -/
def renderRfc3339 (c : CivilTime) : List Char :=
  renderYear c.year ++ '-' :: padDigits 2 c.month ++ '-' :: padDigits 2 c.day ++
  'T' :: padDigits 2 c.hour ++ ':' :: padDigits 2 c.minute ++ ':' :: padDigits 2 c.second ++
  renderFrac c.nano ++ "+00:00".data

/-- The `Task` struct of `task/mod.rs`: note the deadline field is a plain
`DateTime<Utc>`, not an `Option`. -/
structure Task where
  name : List Char
  tags : Option (List (List Char))
  deadline : CivilTime
  complete : Bool
deriving DecidableEq

/-- `Task::new`: fresh tasks start incomplete. -/
def Task.new (name : List Char) (tags : Option (List (List Char))) (deadline : CivilTime) : Task :=
  ⟨name, tags, deadline, false⟩

/-- `Task::complete` (the method that sets the completion flag). -/
def Task.setComplete (t : Task) : Task := { t with complete := true }

/-- `bool::from_str`: exactly the literals `true` and `false`. -/
def parseBoolLit (s : List Char) : Except ParseBoolError Bool :=
  if s = "true".data then .ok true
  else if s = "false".data then .ok false
  else .error .mk

/-- Rendering of a `bool` by `Display`. -/
def boolChars (b : Bool) : List Char := if b then "true".data else "false".data

/-- The tags column of the `Display` impl: tags joined by `", "`, or empty. -/
def tagsChars : Option (List (List Char)) → List Char
  | none => []
  | some l => List.intercalate commaSpace l

/-- The emptiness test of `Task::from_str` on the tags field: split on `","`
and keep pieces whose trim is non-blank; tags are present when at least one
piece remains. -/
def tagsPresent (tagsStr : List Char) : Bool :=
  !((splitChar ',' tagsStr).filter (fun tag => !(trim tag).isEmpty)).isEmpty

/-- The field list computed by `Task::from_str`: trim the line, strip pipe
characters at both ends, split on `|` and trim every field. -/
def fieldsOf (s : List Char) : List (List Char) :=
  (splitChar '|' (trimPipes (trim s))).map trim

/-- `Task::from_str`: require exactly four fields; tags via the emptiness test
and a `", "` split; deadline parsed as RFC 3339 (converted to UTC) before the
completion flag is parsed as a boolean literal, matching the `?` order in the
source. -/
def decodeTask (s : List Char) : Except ParseTaskError Task :=
  match fieldsOf s with
  | [name, tagsStr, completeStr, deadlineStr] =>
    let tags := if tagsPresent tagsStr then some (splitCommaSpace tagsStr) else none
    match parseRfc3339Off (trim deadlineStr) with
    | .error e => .error (.invalidDateFormat e)
    | .ok (c, off) =>
      match parseBoolLit completeStr with
      | .error e => .error (.parseBool e)
      | .ok b => .ok ⟨name, tags, toUtc c off, b⟩
  | _ => .error .invalidTaskFormat

/-- The `Display` impl for `Task` (the persistence encoding written by the
store): pipe-delimited fields with the deadline in RFC 3339. -/
def taskDisplay (t : Task) : List Char :=
  "| ".data ++ t.name ++ " | ".data ++ tagsChars t.tags ++ " | ".data ++
  boolChars t.complete ++ " | ".data ++ renderRfc3339 t.deadline ++ " |".data

/-- Epoch-style sort key of a civil time; ascending in the order of
`chrono::DateTime` comparison for calendar-valid components. -/
def dtKey (c : CivilTime) : Int :=
  (((((c.year * 13 + c.month) * 32 + c.day) * 24 + c.hour) * 60 + c.minute) * 60 +
    c.second) * 1000000000 + c.nano

/-- The comparator of `read_tasks_from_file`: ascending deadline. -/
def taskLe (a b : Task) : Prop := dtKey a.deadline ≤ dtKey b.deadline

instance : DecidableRel taskLe := fun a b =>
  inferInstanceAs (Decidable (dtKey a.deadline ≤ dtKey b.deadline))

instance : IsTotal Task taskLe := ⟨fun a b => Int.le_total (dtKey a.deadline) (dtKey b.deadline)⟩

instance : IsTrans Task taskLe := ⟨fun _ _ _ h h2 => le_trans (α := Int) h h2⟩

/-- `Vec::sort_by` on the deadline comparator.  Rust's `sort_by` is a stable
sort; a stable sort under a total preorder is extensionally unique, so it is
modelled by insertion sort, which is stable. -/
def sortTasks (ts : List Task) : List Task := List.insertionSort taskLe ts

/-- Remove one trailing carriage return (the CRLF handling of
`BufRead::lines`). -/
def stripCr (s : List Char) : List Char :=
  match s.getLast? with
  | some c => if c = '\r' then s.dropLast else s
  | none => s

/-- `BufRead::lines` on the whole file: split on newline; a piece is a line
when it was newline-terminated (then its trailing carriage return is also
stripped) or when it is a non-empty final unterminated piece. -/
def linesOf (s : List Char) : List (List Char) :=
  let ps := splitChar '\n' s
  let init := ps.dropLast.map stripCr
  match ps.getLast? with
  | some [] => init
  | some l => init ++ [l]
  | none => init

/-- `PlainTextTaskTracker::read_tasks_from_file`: decode every line, failing
on the first decode error, then sort by ascending deadline. -/
def readTasksFromFile (file : List Char) : Except ParseTaskError (List Task) :=
  match (linesOf file).mapM decodeTask with
  | .error e => .error e
  | .ok ts => .ok (sortTasks ts)

/-- One `writeln!` of a task: the `Display` encoding plus a newline. -/
def writeTaskLine (t : Task) : List Char := taskDisplay t ++ ['\n']

/-- `PlainTextTaskTracker::write_tasks_to_file`: every task on its own line. -/
def writeTasksToFile (ts : List Task) : List Char := (ts.map writeTaskLine).flatten

/-- `PlainTextTaskTracker::add_task_logic`: append one encoded line to the
writer (the file is opened in append mode, so existing bytes stay). -/
def addTaskLogic (file : List Char) (t : Task) : List Char := file ++ writeTaskLine t

/-- `PlainTextTaskTracker::add_task`: build the new task with `Task::new` and
append its encoded line. -/
def addTask (file : List Char) (name : List Char) (tags : Option (List (List Char)))
    (deadline : CivilTime) : List Char :=
  addTaskLogic file (Task.new name tags deadline)

/-- The loop of `complete_task_logic`: iterate over tasks, enumerating only
the incomplete ones (counter `k`), and set the completion flag of the
incomplete task whose filtered index equals `id`. -/
def completeGo (id : Nat) : List Task → Nat → List Task
  | [], _ => []
  | t :: ts, k =>
    if t.complete then t :: completeGo id ts k
    else (if k = id then t.setComplete else t) :: completeGo id ts (k + 1)

/-- `PlainTextTaskTracker::complete_task_logic`. -/
def completeTaskLogic (ts : List Task) (id : Nat) : List Task := completeGo id ts 0

/-- The stream built by the `scan` in `delete_task_logic`: for every task from
the first incomplete one onwards, the pair of the current incomplete index and
the task's position. -/
def deletePairsGo : List Task → Option Nat → Nat → List (Nat × Nat)
  | [], _, _ => []
  | t :: ts, inc, tot =>
    let inc2 := if t.complete then inc else some (match inc with | none => 0 | some k => k + 1)
    match inc2 with
    | none => deletePairsGo ts none (tot + 1)
    | some k => (k, tot) :: deletePairsGo ts (some k) (tot + 1)

/-- `PlainTextTaskTracker::delete_task_logic`: find the first scanned pair
whose incomplete index equals `id` and remove the task at its position. -/
def deleteTaskLogic (ts : List Task) (id : Nat) : List Task :=
  match (deletePairsGo ts none 0).find? (fun p => p.1 = id) with
  | some p => ts.eraseIdx p.2
  | none => ts

/-- The number of incomplete tasks in a collection (the size of the filtered
view indexed by `complete`/`delete`). -/
def incompleteCount (ts : List Task) : Nat := (ts.filter (fun t => !t.complete)).length

/-- The filter predicate used to state sort stability: equality of the
deadline with a fixed civil time. -/
def deadlineIs (d : CivilTime) (t : Task) : Bool := decide (t.deadline = d)

/-- Calendar validity of a deadline in the modelled RFC 3339 domain. -/
def ValidCivil (c : CivilTime) : Prop :=
  0 ≤ c.year ∧ c.year ≤ 9999 ∧ civilOkB c = true ∧ c.nano ≤ 999999999

/-- Codec-normality of the tags component: when present, the joined tags
field is trimmed, pipe-free, passes the emptiness test and splits back to
exactly the same list (all of which hold for every decoded tags list). -/
def ValidTags : Option (List (List Char)) → Prop
  | none => True
  | some l =>
    trim (List.intercalate commaSpace l) = List.intercalate commaSpace l ∧
    '|' ∉ List.intercalate commaSpace l ∧
    tagsPresent (List.intercalate commaSpace l) = true ∧
    splitCommaSpace (List.intercalate commaSpace l) = l

instance : (o : Option (List (List Char))) → Decidable (ValidTags o)
  | none => isTrue trivial
  | some _ => inferInstanceAs (Decidable (_ ∧ _ ∧ _ ∧ _))

/-- Codec-normality of a task: the name is trimmed and pipe-free, the tags
are codec-normal and the deadline is calendar-valid.  Every task produced by
`decodeTask` satisfies this. -/
def ValidTask (t : Task) : Prop :=
  trim t.name = t.name ∧ '|' ∉ t.name ∧ ValidTags t.tags ∧ ValidCivil t.deadline

instance (c : CivilTime) : Decidable (ValidCivil c) :=
  inferInstanceAs (Decidable (_ ∧ _ ∧ _ ∧ _))

instance (t : Task) : Decidable (ValidTask t) :=
  inferInstanceAs (Decidable (_ ∧ _ ∧ _ ∧ _))

instance {ε α : Type} [DecidableEq ε] [DecidableEq α] : DecidableEq (Except ε α) := fun a b =>
  match a, b with
  | .ok x, .ok y =>
    match decEq x y with
    | isTrue h => isTrue (by rw [h])
    | isFalse h => isFalse (by intro hh; cases hh; exact h rfl)
  | .error x, .error y =>
    match decEq x y with
    | isTrue h => isTrue (by rw [h])
    | isFalse h => isFalse (by intro hh; cases hh; exact h rfl)
  | .ok _, .error _ => isFalse (by intro hh; cases hh)
  | .error _, .ok _ => isFalse (by intro hh; cases hh)

/-! ### Lemmas about trimming -/

theorem trimL_cons_not_ws (c : Char) (s : List Char) (h : c.isWhitespace = false) :
    trimL (c :: s) = c :: s := by
  simp [trimL, List.dropWhile_cons, h]

theorem trimR_append_not_ws (c : Char) (s : List Char) (h : c.isWhitespace = false) :
    trimR (s ++ [c]) = s ++ [c] := by
  simp [trimR, List.dropWhile_cons, h]

theorem trimR_append_space (s : List Char) : trimR (s ++ [' ']) = trimR s := by
  simp [trimR, List.dropWhile_cons]

theorem trim_cons_space (s : List Char) : trim (' ' :: s) = trim s := by
  simp [trim, trimL, List.dropWhile_cons]

theorem trim_append_space (s : List Char) : trim (s ++ [' ']) = trim s := by
  induction s with
  | nil => rfl
  | cons c s ih =>
    by_cases h : c.isWhitespace = true
    · simpa [trim, trimL, List.dropWhile_cons, h] using ih
    · simp only [Bool.not_eq_true] at h
      simp only [trim, trimL, List.cons_append, List.dropWhile_cons, h, Bool.false_eq_true,
        if_false]
      have h2 := trimR_append_space (c :: s)
      simpa using h2

theorem trim_space_pad (s : List Char) : trim (' ' :: (s ++ [' '])) = trim s := by
  rw [trim_cons_space, trim_append_space]

theorem trim_nil : trim [] = [] := rfl

theorem trim_all_ws (s : List Char) (h : ∀ c ∈ s, c.isWhitespace = true) : trim s = [] := by
  have hL : trimL s = [] := by
    simp [trimL, List.dropWhile_eq_nil_iff]
    exact fun c hc => h c hc
  simp [trim, hL, trimR]

/-! ### Lemmas about `splitChar` -/

theorem splitChar_ne_nil (sep : Char) (s : List Char) : splitChar sep s ≠ [] := by
  cases s with
  | nil => simp [splitChar]
  | cons c cs =>
    simp only [splitChar]
    split
    · simp
    · split <;> simp

theorem splitChar_not_mem (sep : Char) (s : List Char) (h : sep ∉ s) :
    splitChar sep s = [s] := by
  induction s with
  | nil => rfl
  | cons c cs ih =>
    simp only [List.mem_cons, not_or] at h
    have hc : ¬ c = sep := fun hh => h.1 hh.symm
    simp only [splitChar, hc, if_false]
    rw [ih h.2]

theorem splitChar_append_sep (sep : Char) (x y : List Char) (h : sep ∉ x) :
    splitChar sep (x ++ sep :: y) = x :: splitChar sep y := by
  induction x with
  | nil => simp [splitChar]
  | cons c cs ih =>
    simp only [List.mem_cons, not_or] at h
    have hc : ¬ c = sep := fun hh => h.1 hh.symm
    simp only [List.cons_append, splitChar, hc, if_false, List.append_eq]
    rw [ih h.2]

theorem mem_splitChar_subset (sep : Char) (s p : List Char) (hp : p ∈ splitChar sep s)
    (c : Char) (hc : c ∈ p) : c ∈ s := by
  induction s generalizing p with
  | nil =>
    simp only [splitChar, List.mem_singleton] at hp
    subst hp
    simp at hc
  | cons a as ih =>
    simp only [splitChar] at hp
    split at hp
    · rcases List.mem_cons.mp hp with h1 | h1
      · subst h1; simp at hc
      · exact List.mem_cons_of_mem _ (ih p h1 hc)
    · rename_i ha
      rcases hq : splitChar sep as with _ | ⟨q, qs⟩
      · exact absurd hq (splitChar_ne_nil sep as)
      · rw [hq] at hp
        rcases List.mem_cons.mp hp with h1 | h1
        · subst h1
          rcases List.mem_cons.mp hc with h2 | h2
          · exact h2 ▸ List.mem_cons_self _ _
          · exact List.mem_cons_of_mem _ (ih q (hq ▸ List.mem_cons_self _ _) h2)
        · exact List.mem_cons_of_mem _ (ih p (hq ▸ List.mem_cons_of_mem _ h1) hc)

theorem mem_splitChar_no_sep (sep : Char) (s p : List Char) (hp : p ∈ splitChar sep s) :
    sep ∉ p := by
  induction s generalizing p with
  | nil =>
    simp only [splitChar, List.mem_singleton] at hp
    subst hp
    simp
  | cons a as ih =>
    simp only [splitChar] at hp
    split at hp
    · rcases List.mem_cons.mp hp with h1 | h1
      · subst h1; simp
      · exact ih p h1
    · rename_i ha
      rcases hq : splitChar sep as with _ | ⟨q, qs⟩
      · exact absurd hq (splitChar_ne_nil sep as)
      · rw [hq] at hp
        rcases List.mem_cons.mp hp with h1 | h1
        · subst h1
          intro hmem
          rcases List.mem_cons.mp hmem with h2 | h2
          · exact ha h2.symm
          · exact ih q (hq ▸ List.mem_cons_self _ _) h2
        · exact ih p (hq ▸ List.mem_cons_of_mem _ h1)

/-! ### Lemmas about `trimPipes` -/

theorem trimPipes_shape (m : List Char) :
    trimPipes ('|' :: ' ' :: (m ++ [' ', '|'])) = ' ' :: m ++ [' '] := by
  have h1 : List.dropWhile (fun c => c = '|') ('|' :: ' ' :: (m ++ [' ', '|'])) =
      ' ' :: (m ++ [' ', '|']) := by
    simp [List.dropWhile_cons]
  have h2 : (' ' :: (m ++ [' ', '|'])).reverse = '|' :: ' ' :: (m.reverse ++ [' ']) := by
    simp
  have h3 : List.dropWhile (fun c => c = '|') ('|' :: ' ' :: (m.reverse ++ [' '])) =
      ' ' :: (m.reverse ++ [' ']) := by
    simp [List.dropWhile_cons]
  simp only [trimPipes, h1, h2, h3]
  simp

/-! ### Lemmas about digits and fixed-width numerals -/

theorem digitChar_props : ∀ d, d < 10 → (digitChar d).isDigit = true ∧
    digitVal (digitChar d) = d ∧ (digitChar d).isWhitespace = false ∧ digitChar d ≠ '|' := by
  decide

theorem length_padDigits (w n : Nat) : (padDigits w n).length = w := by
  induction w generalizing n with
  | zero => rfl
  | succ w ih => simp [padDigits, ih]

theorem mixRadix_eq (acc q r w : Nat) :
    (acc * 10 + q) * 10 ^ w + r = acc * 10 ^ (w + 1) + (10 ^ w * q + r) := by
  rw [pow_succ]
  ring

theorem mem_padDigits_isDigit (w : Nat) : ∀ n, n < 10 ^ w → ∀ c ∈ padDigits w n,
    c.isDigit = true := by
  induction w with
  | zero => intro n hn c hc; simp [padDigits] at hc
  | succ w ih =>
    intro n hn c hc
    have hd : n / 10 ^ w < 10 := Nat.div_lt_of_lt_mul (by rw [pow_succ] at hn; exact hn)
    simp only [padDigits, List.mem_cons] at hc
    rcases hc with h | h
    · subst h
      exact (digitChar_props (n / 10 ^ w) hd).1
    · exact ih (n % 10 ^ w) (Nat.mod_lt _ (Nat.pow_pos (by omega))) c h

theorem readDigitsE_padDigits (w : Nat) : ∀ acc n rest, n < 10 ^ w →
    readDigitsE w acc (padDigits w n ++ rest) = .ok (acc * 10 ^ w + n, rest) := by
  induction w with
  | zero =>
    intro acc n rest hn
    interval_cases n
    simp [padDigits, readDigitsE]
  | succ w ih =>
    intro acc n rest hn
    have hd : n / 10 ^ w < 10 := Nat.div_lt_of_lt_mul (by rw [pow_succ] at hn; exact hn)
    have hmod : n % 10 ^ w < 10 ^ w := Nat.mod_lt _ (Nat.pow_pos (by omega))
    have hprops := digitChar_props (n / 10 ^ w) hd
    have step : readDigitsE (w + 1) acc (padDigits (w + 1) n ++ rest) =
        readDigitsE w (acc * 10 + n / 10 ^ w) (padDigits w (n % 10 ^ w) ++ rest) := by
      simp [padDigits, readDigitsE, hprops.1, hprops.2.1]
    rw [step, ih _ _ rest hmod, mixRadix_eq, Nat.div_add_mod]

theorem digitsVal_padDigits_aux (w : Nat) : ∀ a n, n < 10 ^ w →
    (padDigits w n).foldl (fun a c => a * 10 + digitVal c) a = a * 10 ^ w + n := by
  induction w with
  | zero =>
    intro a n hn
    interval_cases n
    simp [padDigits]
  | succ w ih =>
    intro a n hn
    have hd : n / 10 ^ w < 10 := Nat.div_lt_of_lt_mul (by rw [pow_succ] at hn; exact hn)
    have hmod : n % 10 ^ w < 10 ^ w := Nat.mod_lt _ (Nat.pow_pos (by omega))
    have hprops := digitChar_props (n / 10 ^ w) hd
    simp only [padDigits, List.foldl_cons]
    rw [hprops.2.1, ih _ (n % 10 ^ w) hmod, mixRadix_eq, Nat.div_add_mod]

theorem digitsVal_padDigits (w n : Nat) (hn : n < 10 ^ w) :
    digitsVal (padDigits w n) = n := by
  have h := digitsVal_padDigits_aux w 0 n hn
  simpa [digitsVal] using h

theorem takeWhile_all_append (p : Char → Bool) (xs : List Char) (y : Char) (r : List Char)
    (hxs : ∀ c ∈ xs, p c = true) (hy : p y = false) :
    (xs ++ y :: r).takeWhile p = xs ∧ (xs ++ y :: r).dropWhile p = y :: r := by
  induction xs with
  | nil => simp [List.takeWhile_cons, List.dropWhile_cons, hy]
  | cons c cs ih =>
    have hc : p c = true := hxs c (List.mem_cons_self _ _)
    have ih2 := ih (fun d hd => hxs d (List.mem_cons_of_mem _ hd))
    simp [List.takeWhile_cons, List.dropWhile_cons, hc, ih2.1, ih2.2]

/-! ### The RFC 3339 parse and render round trip -/

theorem eBind_ok {α β : Type} (a : α) (f : α → Except ChronoParseError β) :
    (Except.ok a >>= f) = f a := rfl

theorem expectCh_same (c : Char) (s : List Char) : expectCh c (c :: s) = .ok s := by
  simp [expectCh]

theorem daysInMonth_le_31 (y : Int) (m : Nat) : daysInMonth y m ≤ 31 := by
  simp only [daysInMonth]
  split
  · split <;> omega
  · split <;> omega

theorem isEmpty_padDigits_succ (w n : Nat) : (padDigits (w + 1) n).isEmpty = false := by
  simp [padDigits]

theorem parseFrac_renderFrac (nano : Nat) (hn : nano ≤ 999999999) (rest : List Char) :
    parseFrac (renderFrac nano ++ '+' :: rest) = .ok (nano, '+' :: rest) := by
  have hplus : ('+' : Char).isDigit = false := by decide
  by_cases h0 : nano = 0
  · subst h0
    simp [renderFrac, parseFrac]
  · have frac (w : Nat) (v : Nat) (hv : v < 10 ^ w) (hw1 : 1 ≤ w) (hw9 : w ≤ 9) :
        parseFrac ('.' :: (padDigits w v ++ '+' :: rest)) =
          .ok (v * 10 ^ (9 - w), '+' :: rest) := by
      have htw := takeWhile_all_append Char.isDigit (padDigits w v) '+' rest
        (mem_padDigits_isDigit w v hv) hplus
      have hlen : (padDigits w v).length = w := length_padDigits w v
      have htk : (padDigits w v).take 9 = padDigits w v :=
        List.take_of_length_le (by omega)
      have hne : (padDigits w v).isEmpty = false := by
        cases w with
        | zero => omega
        | succ w => exact isEmpty_padDigits_succ w v
      simp only [parseFrac, if_pos rfl, htw.1, htw.2, hne, Bool.false_eq_true, if_false,
        htk, hlen, digitsVal_padDigits w v hv]
      rw [min_eq_left hw9]
      simp
    by_cases h3 : nano % 1000000 = 0
    · have hd : nano / 1000000 < 10 ^ 3 := by omega
      have : renderFrac nano = '.' :: padDigits 3 (nano / 1000000) := by
        simp [renderFrac, h0, h3]
      rw [this, List.cons_append, frac 3 _ hd (by omega) (by omega)]
      have : nano / 1000000 * 10 ^ (9 - 3) = nano := by
        have := Nat.div_mul_cancel (Nat.dvd_of_mod_eq_zero h3)
        simpa using this
      rw [this]
    · by_cases h6 : nano % 1000 = 0
      · have hd : nano / 1000 < 10 ^ 6 := by omega
        have : renderFrac nano = '.' :: padDigits 6 (nano / 1000) := by
          simp [renderFrac, h0, h3, h6]
        rw [this, List.cons_append, frac 6 _ hd (by omega) (by omega)]
        have : nano / 1000 * 10 ^ (9 - 6) = nano := by
          have := Nat.div_mul_cancel (Nat.dvd_of_mod_eq_zero h6)
          simpa using this
        rw [this]
      · have hd : nano < 10 ^ 9 := by omega
        have : renderFrac nano = '.' :: padDigits 9 nano := by
          simp [renderFrac, h0, h3, h6]
        rw [this, List.cons_append, frac 9 _ hd (by omega) (by omega)]
        simp

theorem parseOffset_utc (rest : List Char) :
    parseOffset ('+' :: ('0' :: '0' :: ':' :: '0' :: '0' :: rest)) = .ok (0, rest) := by
  have h1 : readDigitsE 2 0 ('0' :: '0' :: ':' :: '0' :: '0' :: rest) =
      .ok (0, ':' :: '0' :: '0' :: rest) := by simp [readDigitsE, digitVal]
  have h2 : readDigitsE 2 0 ('0' :: '0' :: rest) = .ok (0, rest) := by
    simp [readDigitsE, digitVal]
  have hnz : ¬(('+' : Char) = 'Z' ∨ ('+' : Char) = 'z') := by decide
  simp only [parseOffset, parseOffsetNum, if_neg hnz, if_pos rfl, h1, h2, eBind_ok,
    expectCh_same]
  norm_num

theorem parseRfc3339Off_render (c : CivilTime) (h : ValidCivil c) :
    parseRfc3339Off (renderRfc3339 c) = .ok (c, 0) := by
  obtain ⟨hy0, hy1, hok, hna⟩ := h
  cases c with
  | mk y mo dy hh mi se na =>
  simp only [civilOkB, Bool.and_eq_true, decide_eq_true_eq] at hok
  obtain ⟨⟨⟨⟨⟨⟨hmo1, hmo2⟩, hdy1⟩, hdy2⟩, hhh⟩, hmi⟩, hse⟩ := hok
  simp only at hy0 hy1 hna
  have hdm := daysInMonth_le_31 y mo
  have hY : y.toNat < 10 ^ 4 := by
    have h4 : (10 : Nat) ^ 4 = 10000 := by norm_num
    omega
  have hMO : mo < 10 ^ 2 := by
    have h2 : (10 : Nat) ^ 2 = 100 := by norm_num
    omega
  have hDY : dy < 10 ^ 2 := by
    have h2 : (10 : Nat) ^ 2 = 100 := by norm_num
    omega
  have hHH : hh < 10 ^ 2 := by
    have h2 : (10 : Nat) ^ 2 = 100 := by norm_num
    omega
  have hMI : mi < 10 ^ 2 := by
    have h2 : (10 : Nat) ^ 2 = 100 := by norm_num
    omega
  have hSE : se < 10 ^ 2 := by
    have h2 : (10 : Nat) ^ 2 = 100 := by norm_num
    omega
  have hyr : renderYear y = padDigits 4 y.toNat := by
    simp [renderYear, not_lt.mpr hy0, if_neg]
  have hoffs : ("+00:00".data : List Char) = '+' :: '0' :: '0' :: ':' :: '0' :: '0' :: [] := by
    decide
  simp only [renderRfc3339, hyr, hoffs, parseRfc3339Off, List.append_assoc, List.cons_append]
  rw [readDigitsE_padDigits 4 0 y.toNat _ hY, eBind_ok, expectCh_same, eBind_ok,
    readDigitsE_padDigits 2 0 mo _ hMO, eBind_ok, expectCh_same, eBind_ok,
    readDigitsE_padDigits 2 0 dy _ hDY, eBind_ok, expectCh_same, eBind_ok,
    readDigitsE_padDigits 2 0 hh _ hHH, eBind_ok, expectCh_same, eBind_ok,
    readDigitsE_padDigits 2 0 mi _ hMI, eBind_ok, expectCh_same, eBind_ok,
    readDigitsE_padDigits 2 0 se _ hSE, eBind_ok]
  rw [show (renderFrac na ++ '+' :: '0' :: '0' :: ':' :: '0' :: '0' :: []) =
    (renderFrac na ++ '+' :: ('0' :: '0' :: ':' :: '0' :: '0' :: [])) from rfl]
  rw [parseFrac_renderFrac na hna, eBind_ok, parseOffset_utc, eBind_ok]
  have hcoe : ((y.toNat : Int)) = y := Int.toNat_of_nonneg hy0
  simp only [Nat.zero_mul, Nat.zero_add, hcoe, if_pos rfl]
  have : civilOkB ⟨y, mo, dy, hh, mi, se, na⟩ = true := by
    simp only [civilOkB, Bool.and_eq_true, decide_eq_true_eq]
    exact ⟨⟨⟨⟨⟨⟨hmo1, hmo2⟩, hdy1⟩, hdy2⟩, hhh⟩, hmi⟩, hse⟩
  simp [this]

/-! ### Shape facts about rendered lines -/

theorem trim_eq_self (a b : Char) (t : List Char) (ha : a.isWhitespace = false)
    (hb : b.isWhitespace = false) : trim (a :: (t ++ [b])) = a :: (t ++ [b]) := by
  rw [trim, trimL_cons_not_ws a _ ha]
  have h2 := trimR_append_not_ws b (a :: t) hb
  simpa using h2

theorem isDigit_ne_pipe (ch : Char) (h : ch.isDigit = true) : ch ≠ '|' := by
  intro he
  subst he
  exact absurd h (by decide)

theorem mem_renderFrac (n : Nat) (hn : n ≤ 999999999) (ch : Char) (hm : ch ∈ renderFrac n) :
    ch = '.' ∨ ch.isDigit = true := by
  simp only [renderFrac] at hm
  split at hm
  · simp at hm
  · split at hm
    · rcases List.mem_cons.mp hm with h | h
      · exact Or.inl h
      · exact Or.inr (mem_padDigits_isDigit 3 _ (by omega) ch h)
    · split at hm
      · rcases List.mem_cons.mp hm with h | h
        · exact Or.inl h
        · exact Or.inr (mem_padDigits_isDigit 6 _ (by omega) ch h)
      · rcases List.mem_cons.mp hm with h | h
        · exact Or.inl h
        · exact Or.inr (mem_padDigits_isDigit 9 _ (by omega) ch h)

theorem pipe_not_mem_render (c : CivilTime) (h : ValidCivil c) : '|' ∉ renderRfc3339 c := by
  obtain ⟨hy0, hy1, hok, hna⟩ := h
  simp only [civilOkB, Bool.and_eq_true, decide_eq_true_eq] at hok
  obtain ⟨⟨⟨⟨⟨⟨hmo1, hmo2⟩, hdy1⟩, hdy2⟩, hhh⟩, hmi⟩, hse⟩ := hok
  have hdm := daysInMonth_le_31 c.year c.month
  have hY : c.year.toNat < 10 ^ 4 := by
    have h4 : (10 : Nat) ^ 4 = 10000 := by norm_num
    omega
  have h2 : (10 : Nat) ^ 2 = 100 := by norm_num
  intro hm
  simp only [renderRfc3339, renderYear, not_lt.mpr hy0, if_neg, Bool.false_eq_true,
    if_false, List.mem_append, List.mem_cons] at hm
  rcases hm with ((((((hm | hm) | hm) | hm) | hm) | hm) | hm) | hm
  · exact isDigit_ne_pipe _ (mem_padDigits_isDigit 4 _ hY _ hm) rfl
  · rcases hm with hm | hm
    · exact absurd hm (by decide)
    · exact isDigit_ne_pipe _ (mem_padDigits_isDigit 2 _ (by omega) _ hm) rfl
  · rcases hm with hm | hm
    · exact absurd hm (by decide)
    · exact isDigit_ne_pipe _ (mem_padDigits_isDigit 2 _ (by omega) _ hm) rfl
  · rcases hm with hm | hm
    · exact absurd hm (by decide)
    · exact isDigit_ne_pipe _ (mem_padDigits_isDigit 2 _ (by omega) _ hm) rfl
  · rcases hm with hm | hm
    · exact absurd hm (by decide)
    · exact isDigit_ne_pipe _ (mem_padDigits_isDigit 2 _ (by omega) _ hm) rfl
  · rcases hm with hm | hm
    · exact absurd hm (by decide)
    · exact isDigit_ne_pipe _ (mem_padDigits_isDigit 2 _ (by omega) _ hm) rfl
  · rcases mem_renderFrac _ hna _ hm with h | h
    · exact absurd h (by decide)
    · exact isDigit_ne_pipe _ h rfl
  · exact absurd hm (by decide)

theorem render_shape (c : CivilTime) (h0 : 0 ≤ c.year) :
    renderRfc3339 c = digitChar (c.year.toNat / 10 ^ 3) ::
      ((padDigits 3 (c.year.toNat % 10 ^ 3) ++ '-' :: padDigits 2 c.month ++
        '-' :: padDigits 2 c.day ++ 'T' :: padDigits 2 c.hour ++
        ':' :: padDigits 2 c.minute ++ ':' :: padDigits 2 c.second ++
        renderFrac c.nano ++ "+00:0".data) ++ ['0']) := by
  have hz : ("+00:00".data : List Char) = "+00:0".data ++ ['0'] := by decide
  simp [renderRfc3339, renderYear, not_lt.mpr h0, padDigits, hz, List.append_assoc,
    List.cons_append]

theorem trim_render (c : CivilTime) (h : ValidCivil c) :
    trim (renderRfc3339 c) = renderRfc3339 c := by
  obtain ⟨hy0, hy1, hok, hna⟩ := h
  have hY : c.year.toNat < 10 ^ 4 := by
    have h4 : (10 : Nat) ^ 4 = 10000 := by norm_num
    omega
  have hd : c.year.toNat / 10 ^ 3 < 10 := Nat.div_lt_of_lt_mul (by norm_num at hY ⊢; omega)
  rw [render_shape c hy0]
  exact trim_eq_self _ '0' _ (digitChar_props _ hd).2.2.1 (by decide)

theorem render_ne_nil (c : CivilTime) : renderRfc3339 c ≠ [] := by
  simp only [renderRfc3339, renderYear]
  split <;> simp [padDigits]

/-! ### The field decomposition of an encoded line -/

theorem pipe_not_mem_pad (x : List Char) (hx : '|' ∉ x) : '|' ∉ (' ' :: x ++ [' ']) := by
  intro hm
  simp only [List.cons_append, List.mem_cons, List.mem_append, List.mem_singleton] at hm
  rcases hm with h | h | h
  · exact absurd h (by decide)
  · exact hx h
  · exact absurd h (by decide)

theorem fieldsOf_display (n tg b dl : List Char) (hn : '|' ∉ n) (htg : '|' ∉ tg)
    (hb : '|' ∉ b) (hdl : '|' ∉ dl) :
    fieldsOf ("| ".data ++ n ++ " | ".data ++ tg ++ " | ".data ++ b ++ " | ".data ++
      dl ++ " |".data) = [trim n, trim tg, trim b, trim dl] := by
  have hE : ("| ".data ++ n ++ " | ".data ++ tg ++ " | ".data ++ b ++ " | ".data ++
      dl ++ " |".data) =
      '|' :: ' ' :: ((n ++ ' ' :: '|' :: ' ' :: (tg ++ ' ' :: '|' :: ' ' ::
        (b ++ ' ' :: '|' :: ' ' :: dl))) ++ [' ', '|']) := by
    have d1 : ("| ".data : List Char) = ['|', ' '] := by decide
    have d2 : (" | ".data : List Char) = [' ', '|', ' '] := by decide
    have d3 : (" |".data : List Char) = [' ', '|'] := by decide
    simp [d1, d2, d3, List.append_assoc]
  have htrim : trim ('|' :: ' ' :: ((n ++ ' ' :: '|' :: ' ' :: (tg ++ ' ' :: '|' :: ' ' ::
      (b ++ ' ' :: '|' :: ' ' :: dl))) ++ [' ', '|'])) =
      '|' :: ' ' :: ((n ++ ' ' :: '|' :: ' ' :: (tg ++ ' ' :: '|' :: ' ' ::
      (b ++ ' ' :: '|' :: ' ' :: dl))) ++ [' ', '|']) := by
    have h2 := trim_eq_self '|' '|'
      (' ' :: ((n ++ ' ' :: '|' :: ' ' :: (tg ++ ' ' :: '|' :: ' ' ::
        (b ++ ' ' :: '|' :: ' ' :: dl))) ++ [' ']))
      (by decide) (by decide)
    simpa [List.append_assoc] using h2
  have hsplit : splitChar '|' (' ' :: (n ++ ' ' :: '|' :: ' ' :: (tg ++ ' ' :: '|' :: ' ' ::
      (b ++ ' ' :: '|' :: ' ' :: dl))) ++ [' ']) =
      [' ' :: n ++ [' '], ' ' :: tg ++ [' '], ' ' :: b ++ [' '], ' ' :: dl ++ [' ']] := by
    have e1 : ' ' :: (n ++ ' ' :: '|' :: ' ' :: (tg ++ ' ' :: '|' :: ' ' ::
        (b ++ ' ' :: '|' :: ' ' :: dl))) ++ [' '] =
        (' ' :: n ++ [' ']) ++ '|' :: ((' ' :: tg ++ [' ']) ++ '|' ::
          ((' ' :: b ++ [' ']) ++ '|' :: (' ' :: dl ++ [' ']))) := by
      simp [List.append_assoc]
    rw [e1, splitChar_append_sep _ _ _ (pipe_not_mem_pad n hn),
      splitChar_append_sep _ _ _ (pipe_not_mem_pad tg htg),
      splitChar_append_sep _ _ _ (pipe_not_mem_pad b hb),
      splitChar_not_mem _ _ (pipe_not_mem_pad dl hdl)]
  rw [fieldsOf, hE, htrim, trimPipes_shape, hsplit]
  simp [trim_space_pad]

/-! ### Decoding an encoded task -/

theorem trim_boolChars (b : Bool) : trim (boolChars b) = boolChars b := by
  cases b <;> decide

theorem pipe_not_mem_boolChars (b : Bool) : '|' ∉ boolChars b := by
  cases b <;> decide

theorem parseBoolLit_boolChars (b : Bool) : parseBoolLit (boolChars b) = .ok b := by
  cases b <;> rfl

theorem toUtc_zero (c : CivilTime) : toUtc c 0 = c := by
  simp [toUtc]

theorem decode_encode_of_valid (t : Task) (h : ValidTask t) :
    decodeTask (taskDisplay t) = .ok t := by
  obtain ⟨name, tags, deadline, complete⟩ := t
  obtain ⟨hn, hnp, htags, hciv⟩ := h
  simp only at hn hnp htags hciv
  have htgp : '|' ∉ tagsChars tags := by
    cases tags with
    | none => simp [tagsChars]
    | some l => exact htags.2.1
  have htgt : trim (tagsChars tags) = tagsChars tags := by
    cases tags with
    | none => rfl
    | some l => exact htags.1
  have hfields := fieldsOf_display name (tagsChars tags) (boolChars complete)
    (renderRfc3339 deadline) hnp htgp (pipe_not_mem_boolChars complete)
    (pipe_not_mem_render deadline hciv)
  rw [hn, htgt, trim_boolChars, trim_render deadline hciv] at hfields
  show decodeTask ("| ".data ++ name ++ " | ".data ++ tagsChars tags ++ " | ".data ++
    boolChars complete ++ " | ".data ++ renderRfc3339 deadline ++ " |".data) = _
  rw [decodeTask, hfields]
  simp only [trim_render deadline hciv, parseRfc3339Off_render deadline hciv,
    parseBoolLit_boolChars, toUtc_zero]
  cases tags with
  | none => simp [tagsChars, tagsPresent, splitChar, trim, trimL, trimR]
  | some l =>
    rw [show tagsChars (some l) = List.intercalate commaSpace l from rfl]
    rw [htags.2.2.1]
    simp [htags.2.2.2]

/-! ### Complete and delete logic -/

theorem incompleteCount_cons_true (t : Task) (ts : List Task) (h : t.complete = true) :
    incompleteCount (t :: ts) = incompleteCount ts := by
  simp [incompleteCount, List.filter_cons, h]

theorem incompleteCount_cons_false (t : Task) (ts : List Task) (h : t.complete = false) :
    incompleteCount (t :: ts) = incompleteCount ts + 1 := by
  simp [incompleteCount, List.filter_cons, h]

theorem completeGo_out (id : Nat) (ts : List Task) : ∀ k, id < k →
    completeGo id ts k = ts := by
  induction ts with
  | nil => intro k _; rfl
  | cons t ts ih =>
    intro k hk
    cases hc : t.complete with
    | true => simp [completeGo, hc, ih k hk]
    | false =>
      have hne : ¬ k = id := by omega
      simp [completeGo, hc, hne, ih (k + 1) (by omega)]

theorem completeGo_ge (id : Nat) (ts : List Task) : ∀ k, k + incompleteCount ts ≤ id →
    completeGo id ts k = ts := by
  induction ts with
  | nil => intro k _; rfl
  | cons t ts ih =>
    intro k hk
    cases hc : t.complete with
    | true =>
      rw [incompleteCount_cons_true t ts hc] at hk
      simp [completeGo, hc, ih k hk]
    | false =>
      rw [incompleteCount_cons_false t ts hc] at hk
      have hne : ¬ k = id := by omega
      simp [completeGo, hc, hne, ih (k + 1) (by omega)]

theorem completeGo_split (id : Nat) (t : Task) (post : List Task) (ht : t.complete = false) :
    ∀ pre k, k + incompleteCount pre = id →
    completeGo id (pre ++ t :: post) k = pre ++ t.setComplete :: post := by
  intro pre
  induction pre with
  | nil =>
    intro k hk
    simp only [incompleteCount, List.filter_nil, List.length_nil, Nat.add_zero] at hk
    subst hk
    simp [completeGo, ht, completeGo_out k post (k + 1) (by omega)]
  | cons p pre ih =>
    intro k hk
    cases hc : p.complete with
    | true =>
      rw [incompleteCount_cons_true p pre hc] at hk
      simp [completeGo, hc, ih k hk]
    | false =>
      rw [incompleteCount_cons_false p pre hc] at hk
      have hne : ¬ k = id := by omega
      simp [completeGo, hc, hne, ih (k + 1) (by omega)]

/-- The state of the `scan` in `delete_task_logic` counts the incomplete
tasks seen so far: `none` stands for zero, `some k` for `k + 1`. -/
def nIncAfter : Option Nat → Nat
  | none => 0
  | some k => k + 1

theorem deletePairsGo_cons (t : Task) (ts : List Task) (inc : Option Nat) (tot : Nat) :
    deletePairsGo (t :: ts) inc tot =
      if t.complete then
        (match inc with
         | none => deletePairsGo ts none (tot + 1)
         | some k => (k, tot) :: deletePairsGo ts (some k) (tot + 1))
      else (nIncAfter inc, tot) :: deletePairsGo ts (some (nIncAfter inc)) (tot + 1) := by
  cases hc : t.complete <;> cases inc <;> simp [deletePairsGo, hc, nIncAfter]

theorem deletePairsGo_find_none (id : Nat) (ts : List Task) :
    ∀ inc tot, nIncAfter inc + incompleteCount ts ≤ id →
    (deletePairsGo ts inc tot).find? (fun p => p.1 = id) = none := by
  induction ts with
  | nil => intro inc tot _; simp [deletePairsGo]
  | cons t ts ih =>
    intro inc tot hk
    rw [deletePairsGo_cons]
    cases hc : t.complete with
    | true =>
      rw [incompleteCount_cons_true t ts hc] at hk
      simp only [if_true]
      cases inc with
      | none => exact ih none (tot + 1) hk
      | some k =>
        have hne : ¬ ((k, tot).1 = id) := by simp [nIncAfter] at hk ⊢; omega
        rw [List.find?_cons_of_neg _ (by simpa using hne)]
        exact ih (some k) (tot + 1) hk
    | false =>
      rw [incompleteCount_cons_false t ts hc] at hk
      simp only [Bool.false_eq_true, if_false]
      have hne : ¬ ((nIncAfter inc, tot).1 = id) := by simp; omega
      rw [List.find?_cons_of_neg _ (by simpa using hne)]
      refine ih (some (nIncAfter inc)) (tot + 1) ?_
      rw [show nIncAfter (some (nIncAfter inc)) = nIncAfter inc + 1 from rfl]
      omega

theorem deletePairsGo_find_split (id : Nat) (t : Task) (post : List Task)
    (ht : t.complete = false) :
    ∀ pre inc tot, nIncAfter inc + incompleteCount pre = id →
    (deletePairsGo (pre ++ t :: post) inc tot).find? (fun p => p.1 = id) =
      some (id, tot + pre.length) := by
  intro pre
  induction pre with
  | nil =>
    intro inc tot hk
    simp only [incompleteCount, List.filter_nil, List.length_nil, Nat.add_zero] at hk
    simp only [List.nil_append, deletePairsGo_cons, ht, Bool.false_eq_true, if_false]
    rw [List.find?_cons_of_pos _ (by simpa using hk)]
    simp [hk]
  | cons p pre ih =>
    intro inc tot hk
    simp only [List.cons_append, deletePairsGo_cons]
    cases hc : p.complete with
    | true =>
      rw [incompleteCount_cons_true p pre hc] at hk
      simp only [if_true]
      cases inc with
      | none =>
        rw [ih none (tot + 1) hk]
        simp only [List.length_cons]
        congr 2
        omega
      | some k =>
        have hne : ¬ ((k, tot).1 = id) := by simp [nIncAfter] at hk ⊢; omega
        rw [List.find?_cons_of_neg _ (by simpa using hne), ih (some k) (tot + 1) hk]
        simp only [List.length_cons]
        congr 2
        omega
    | false =>
      rw [incompleteCount_cons_false p pre hc] at hk
      simp only [Bool.false_eq_true, if_false]
      have hne : ¬ ((nIncAfter inc, tot).1 = id) := by simp; omega
      rw [List.find?_cons_of_neg _ (by simpa using hne),
        ih (some (nIncAfter inc)) (tot + 1) (by
          rw [show nIncAfter (some (nIncAfter inc)) = nIncAfter inc + 1 from rfl]
          omega)]
      simp only [List.length_cons]
      congr 2
      omega

theorem eraseIdx_middle (pre : List Task) (t : Task) (post : List Task) :
    (pre ++ t :: post).eraseIdx pre.length = pre ++ post := by
  induction pre with
  | nil => rfl
  | cons p pre ih => simp [List.eraseIdx, ih]

/-! ### Sort stability -/

theorem deadlineIs_true (d : CivilTime) (t : Task) : deadlineIs d t = true ↔ t.deadline = d := by
  simp [deadlineIs]

theorem filter_insertionSort_deadline (d : CivilTime) (l : List Task) :
    (List.insertionSort taskLe l).filter (deadlineIs d) = l.filter (deadlineIs d) := by
  induction l with
  | nil => rfl
  | cons x l ih =>
    rw [List.insertionSort, List.orderedInsert_eq_take_drop, List.filter_append]
    have hsplit : ((List.insertionSort taskLe l).takeWhile fun b => ¬ taskLe x b).filter
          (deadlineIs d) ++
        ((List.insertionSort taskLe l).dropWhile fun b => ¬ taskLe x b).filter
          (deadlineIs d) = l.filter (deadlineIs d) := by
      rw [← List.filter_append, List.takeWhile_append_dropWhile, ih]
    by_cases hx : x.deadline = d
    · have h1 : (((List.insertionSort taskLe l).takeWhile fun b => ¬ taskLe x b).filter
          (deadlineIs d)) = [] := by
        rw [List.filter_eq_nil_iff]
        intro b hb
        have hnb := List.mem_takeWhile_imp hb
        simp only [decide_eq_true_eq] at hnb
        intro hdb
        rw [deadlineIs_true] at hdb
        exact hnb (by simp [taskLe, hx, hdb])
      have e2 : ((x :: ((List.insertionSort taskLe l).dropWhile fun b => ¬ taskLe x b)).filter
          (deadlineIs d)) = x :: (((List.insertionSort taskLe l).dropWhile
            fun b => ¬ taskLe x b).filter (deadlineIs d)) := by
        rw [List.filter_cons, if_pos (by rw [deadlineIs_true]; exact hx)]
      have e3 : ((x :: l).filter (deadlineIs d)) = x :: (l.filter (deadlineIs d)) := by
        rw [List.filter_cons, if_pos (by rw [deadlineIs_true]; exact hx)]
      rw [e2, e3, h1, List.nil_append]
      rw [h1, List.nil_append] at hsplit
      rw [hsplit]
    · have e2 : ((x :: ((List.insertionSort taskLe l).dropWhile fun b => ¬ taskLe x b)).filter
          (deadlineIs d)) = (((List.insertionSort taskLe l).dropWhile
            fun b => ¬ taskLe x b).filter (deadlineIs d)) := by
        rw [List.filter_cons, if_neg (by rw [deadlineIs_true]; exact hx)]
      have e3 : ((x :: l).filter (deadlineIs d)) = l.filter (deadlineIs d) := by
        rw [List.filter_cons, if_neg (by rw [deadlineIs_true]; exact hx)]
      rw [e2, e3, hsplit]

/-! ## The claims -/

/-- C1 counterexample: the round trip fails for a Task as the claim states it.
The task named `a|b` (a non-empty display name, hence a valid Task value per
the data model) encodes to a line with six pipe-delimited fields, which
`Task::from_str` rejects as `InvalidTaskFormat` instead of decoding back. -/
theorem c1_counterexample :
    decodeTask (taskDisplay ⟨"a|b".data, none, ⟨2025, 3, 17, 22, 0, 0, 0⟩, false⟩) =
      .error .invalidTaskFormat ∧ ("a|b".data : List Char) ≠ [] := by
  decide

/-- C1 (amended): for every codec-normal Task — name trimmed and pipe-free,
tags absent or reproduced exactly by the tags-field codec, deadline a valid
calendar time with a four-digit year (all of which hold for every Task
produced by Decode) — decoding the encoded line yields an equal Task:
`Decode(Encode(task)) = Ok(task)`. -/
theorem c1_roundtrip_amended (t : Task) (h : ValidTask t) :
    decodeTask (taskDisplay t) = .ok t :=
  decode_encode_of_valid t h

/-- C1 witness: the round trip at a concrete codec-normal task. -/
theorem c1_witness :
    ValidTask ⟨"Task 1".data, some [['u', 'g', 'h']], ⟨2025, 3, 17, 22, 0, 0, 0⟩, false⟩ ∧
    decodeTask (taskDisplay ⟨"Task 1".data, some [['u', 'g', 'h']],
      ⟨2025, 3, 17, 22, 0, 0, 0⟩, false⟩) =
      .ok ⟨"Task 1".data, some [['u', 'g', 'h']], ⟨2025, 3, 17, 22, 0, 0, 0⟩, false⟩ :=
  ⟨by decide, c1_roundtrip_amended _ (by decide)⟩

/-- C2 counterexample: decoding the line `| Name |  | false |  |` (blank
deadline field) does not yield a Task with an absent deadline — the Task type
has no absent-deadline state and the decode fails with the invalid-timestamp
error. -/
theorem c2_counterexample :
    decodeTask "| Name |  | false |  |".data = .error (.invalidDateFormat .tooShort) := by
  decide

/-- C2 (amended): the deadline is mandatory in this code: every encoded line
carries a non-empty deadline field, and decoding any four-field line whose
deadline field is blank fails with the invalid-timestamp (`InvalidDateFormat`)
error rather than producing a Task. -/
theorem c2_deadline_mandatory :
    (∀ t : Task, renderRfc3339 t.deadline ≠ []) ∧
    (∀ s n tg cf dl, fieldsOf s = [n, tg, cf, dl] → trim dl = [] →
      decodeTask s = .error (.invalidDateFormat .tooShort)) := by
  constructor
  · intro t
    exact render_ne_nil t.deadline
  · intro s n tg cf dl hf hblank
    have hp : parseRfc3339Off (trim dl) = .error .tooShort := by rw [hblank]; rfl
    simp only [decodeTask, hf, hp]

/-- C2 witness: the amended claim at a concrete task and a concrete line with
a whitespace-only deadline field. -/
theorem c2_witness :
    renderRfc3339 (⟨"X".data, none, ⟨2025, 3, 17, 22, 0, 0, 0⟩, false⟩ : Task).deadline ≠ [] ∧
    decodeTask "| X |  | true |   |".data = .error (.invalidDateFormat .tooShort) :=
  ⟨c2_deadline_mandatory.1 ⟨"X".data, none, ⟨2025, 3, 17, 22, 0, 0, 0⟩, false⟩,
   c2_deadline_mandatory.2 "| X |  | true |   |".data "X".data [] "true".data []
     (by decide) (by decide)⟩

/-- C3 counterexample: a line whose complete field is not `true`/`false` does
not always yield the invalid-boolean error — the deadline is parsed first, so
with a malformed deadline on the same line the result is the
invalid-timestamp error. -/
theorem c3_counterexample :
    decodeTask "| a |  | nope | bad |".data = .error (.invalidDateFormat .invalid) ∧
    parseBoolLit "nope".data = .error .mk ∧
    (ParseTaskError.invalidDateFormat .invalid ≠ ParseTaskError.parseBool .mk) := by
  decide

/-- C3 (amended): decode is strict and returns a typed error, never a partial
Task: a line with other than four pipe-delimited fields yields
`InvalidTaskFormat`; a four-field line whose deadline field fails RFC 3339
parsing yields `InvalidDateFormat` carrying the underlying parse failure (the
deadline is parsed before the completion flag, so it takes precedence); and a
four-field line whose deadline parses but whose complete field is not the
literal `true`/`false` yields the `ParseBool` error. -/
theorem c3_strict_errors :
    (∀ s, (fieldsOf s).length ≠ 4 → decodeTask s = .error .invalidTaskFormat) ∧
    (∀ s n tg cf dl e, fieldsOf s = [n, tg, cf, dl] →
      parseRfc3339Off (trim dl) = .error e →
      decodeTask s = .error (.invalidDateFormat e)) ∧
    (∀ s n tg cf dl v, fieldsOf s = [n, tg, cf, dl] →
      parseRfc3339Off (trim dl) = .ok v → parseBoolLit cf = .error .mk →
      decodeTask s = .error (.parseBool .mk)) := by
  refine ⟨?_, ?_, ?_⟩
  · intro s hlen
    rcases hl : fieldsOf s with _ | ⟨a, _ | ⟨b, _ | ⟨c, _ | ⟨d, _ | ⟨e, rest⟩⟩⟩⟩⟩
    · simp [decodeTask, hl]
    · simp [decodeTask, hl]
    · simp [decodeTask, hl]
    · simp [decodeTask, hl]
    · exact absurd (by rw [hl]; rfl) hlen
    · simp [decodeTask, hl]
  · intro s n tg cf dl e hf hdl
    simp only [decodeTask, hf, hdl]
  · intro s n tg cf dl v hf hdl hb
    obtain ⟨cv, off⟩ := v
    simp only [decodeTask, hf, hdl, hb]

/-- C3 witness: the three error stages at concrete lines. -/
theorem c3_witness :
    decodeTask "| a | b |".data = .error .invalidTaskFormat ∧
    decodeTask "| a |  | true | zzz |".data = .error (.invalidDateFormat .invalid) ∧
    decodeTask "| a |  | x | 2025-03-17T22:00:00+00:00 |".data = .error (.parseBool .mk) :=
  ⟨c3_strict_errors.1 "| a | b |".data (by decide),
   c3_strict_errors.2.1 "| a |  | true | zzz |".data "a".data [] "true".data "zzz".data
     .invalid (by decide) (by decide),
   c3_strict_errors.2.2 "| a |  | x | 2025-03-17T22:00:00+00:00 |".data "a".data [] "x".data
     "2025-03-17T22:00:00+00:00".data (⟨2025, 3, 17, 22, 0, 0, 0⟩, 0)
     (by decide) (by decide) (by decide)⟩

/-- C4: `complete_task_logic` locates the task at index `id` counting only
incomplete tasks in the given order (the `id`-th incomplete task, i.e. the
incomplete task preceded by exactly `id` incomplete ones) and sets exactly
that task's completion flag; every other task is unchanged. -/
theorem c4_complete_indexing (pre : List Task) (t : Task) (post : List Task) (id : Nat)
    (hid : incompleteCount pre = id) (ht : t.complete = false) :
    completeTaskLogic (pre ++ t :: post) id = pre ++ t.setComplete :: post := by
  rw [completeTaskLogic, completeGo_split id t post ht pre 0 (by omega)]

/-- C4 witness: index 1 on a two-incomplete-task collection marks only the
second task complete. -/
theorem c4_witness :
    completeTaskLogic
      [⟨"Task 0".data, none, ⟨2025, 3, 17, 22, 0, 0, 0⟩, false⟩,
       ⟨"Task 1".data, none, ⟨2025, 3, 18, 22, 0, 0, 0⟩, false⟩] 1 =
      [⟨"Task 0".data, none, ⟨2025, 3, 17, 22, 0, 0, 0⟩, false⟩,
       ⟨"Task 1".data, none, ⟨2025, 3, 18, 22, 0, 0, 0⟩, true⟩] :=
  c4_complete_indexing [⟨"Task 0".data, none, ⟨2025, 3, 17, 22, 0, 0, 0⟩, false⟩]
    ⟨"Task 1".data, none, ⟨2025, 3, 18, 22, 0, 0, 0⟩, false⟩ [] 1 (by decide) rfl

/-- C5: `delete_task_logic` locates the task at index `id` counting only
incomplete tasks (mirroring complete's indexing) and removes exactly that
task; all other tasks remain present in their original relative order. -/
theorem c5_delete_indexing (pre : List Task) (t : Task) (post : List Task) (id : Nat)
    (hid : incompleteCount pre = id) (ht : t.complete = false) :
    deleteTaskLogic (pre ++ t :: post) id = pre ++ post := by
  rw [deleteTaskLogic,
    deletePairsGo_find_split id t post ht pre none 0
      (by rw [show nIncAfter none = 0 from rfl]; omega)]
  simp only [Nat.zero_add]
  exact eraseIdx_middle pre t post

/-- C5 witness: index 1 on a two-incomplete-task collection removes only the
second task. -/
theorem c5_witness :
    deleteTaskLogic
      [⟨"Task 0".data, none, ⟨2025, 3, 17, 22, 0, 0, 0⟩, false⟩,
       ⟨"Task 1".data, none, ⟨2025, 3, 18, 22, 0, 0, 0⟩, false⟩] 1 =
      [⟨"Task 0".data, none, ⟨2025, 3, 17, 22, 0, 0, 0⟩, false⟩] :=
  c5_delete_indexing [⟨"Task 0".data, none, ⟨2025, 3, 17, 22, 0, 0, 0⟩, false⟩]
    ⟨"Task 1".data, none, ⟨2025, 3, 18, 22, 0, 0, 0⟩, false⟩ [] 1 (by decide) rfl

/-- C6: for every collection and every index with no matching incomplete task
(the index is at least the number of incomplete tasks), `complete_task_logic`
and `delete_task_logic` are silent no-ops: the collection is unchanged. -/
theorem c6_out_of_range_noop (ts : List Task) (id : Nat) (h : incompleteCount ts ≤ id) :
    completeTaskLogic ts id = ts ∧ deleteTaskLogic ts id = ts := by
  constructor
  · exact completeGo_ge id ts 0 (by omega)
  · rw [deleteTaskLogic,
      deletePairsGo_find_none id ts none 0 (by rw [show nIncAfter none = 0 from rfl]; omega)]

/-- C6 witness: index 100 on a two-task collection leaves it unchanged for
both operations. -/
theorem c6_witness :
    completeTaskLogic
      [⟨"Task 0".data, none, ⟨2025, 3, 17, 22, 0, 0, 0⟩, false⟩,
       ⟨"Task 1".data, none, ⟨2025, 3, 18, 22, 0, 0, 0⟩, false⟩] 100 =
      [⟨"Task 0".data, none, ⟨2025, 3, 17, 22, 0, 0, 0⟩, false⟩,
       ⟨"Task 1".data, none, ⟨2025, 3, 18, 22, 0, 0, 0⟩, false⟩] ∧
    deleteTaskLogic
      [⟨"Task 0".data, none, ⟨2025, 3, 17, 22, 0, 0, 0⟩, false⟩,
       ⟨"Task 1".data, none, ⟨2025, 3, 18, 22, 0, 0, 0⟩, false⟩] 100 =
      [⟨"Task 0".data, none, ⟨2025, 3, 17, 22, 0, 0, 0⟩, false⟩,
       ⟨"Task 1".data, none, ⟨2025, 3, 18, 22, 0, 0, 0⟩, false⟩] :=
  c6_out_of_range_noop
    [⟨"Task 0".data, none, ⟨2025, 3, 17, 22, 0, 0, 0⟩, false⟩,
     ⟨"Task 1".data, none, ⟨2025, 3, 18, 22, 0, 0, 0⟩, false⟩] 100 (by decide)

/-- C7: load sorts the decoded collection by ascending deadline with stable
tie-breaking: on a successfully decoded file the result is the stable sort of
the decoded tasks — it is sorted by the deadline comparator, a permutation of
the input, and for every deadline value the tasks carrying it keep their
file order. -/
theorem c7_load_sorted_stable (file : List Char) (ts : List Task)
    (h : (linesOf file).mapM decodeTask = .ok ts) :
    readTasksFromFile file = .ok (sortTasks ts) ∧
    List.Sorted taskLe (sortTasks ts) ∧
    (sortTasks ts).Perm ts ∧
    (∀ d, (sortTasks ts).filter (deadlineIs d) = ts.filter (deadlineIs d)) := by
  refine ⟨?_, ?_, ?_, ?_⟩
  · unfold readTasksFromFile
    rw [h]
  · exact List.sorted_insertionSort taskLe ts
  · exact List.perm_insertionSort taskLe ts
  · intro d
    exact filter_insertionSort_deadline d ts

/-- C7 witness: a two-line file whose tasks share one deadline; loading
succeeds with the stable sort and the equal-deadline tasks keep file order. -/
theorem c7_witness :
    readTasksFromFile
      "| B | x | false | 2025-03-17T22:00:00+00:00 |\n| A |  | true | 2025-03-17T22:00:00+00:00 |\n".data =
      .ok (sortTasks
        [⟨"B".data, some [['x']], ⟨2025, 3, 17, 22, 0, 0, 0⟩, false⟩,
         ⟨"A".data, none, ⟨2025, 3, 17, 22, 0, 0, 0⟩, true⟩]) ∧
    (sortTasks
        [⟨"B".data, some [['x']], ⟨2025, 3, 17, 22, 0, 0, 0⟩, false⟩,
         ⟨"A".data, none, ⟨2025, 3, 17, 22, 0, 0, 0⟩, true⟩]).filter
      (deadlineIs ⟨2025, 3, 17, 22, 0, 0, 0⟩) =
      [⟨"B".data, some [['x']], ⟨2025, 3, 17, 22, 0, 0, 0⟩, false⟩,
       ⟨"A".data, none, ⟨2025, 3, 17, 22, 0, 0, 0⟩, true⟩].filter
      (deadlineIs ⟨2025, 3, 17, 22, 0, 0, 0⟩) :=
  ⟨(c7_load_sorted_stable
      "| B | x | false | 2025-03-17T22:00:00+00:00 |\n| A |  | true | 2025-03-17T22:00:00+00:00 |\n".data
      [⟨"B".data, some [['x']], ⟨2025, 3, 17, 22, 0, 0, 0⟩, false⟩,
       ⟨"A".data, none, ⟨2025, 3, 17, 22, 0, 0, 0⟩, true⟩] (by decide)).1,
   (c7_load_sorted_stable
      "| B | x | false | 2025-03-17T22:00:00+00:00 |\n| A |  | true | 2025-03-17T22:00:00+00:00 |\n".data
      [⟨"B".data, some [['x']], ⟨2025, 3, 17, 22, 0, 0, 0⟩, false⟩,
       ⟨"A".data, none, ⟨2025, 3, 17, 22, 0, 0, 0⟩, true⟩] (by decide)).2.2.2
     ⟨2025, 3, 17, 22, 0, 0, 0⟩⟩

/-- C8: `add_task` builds a Task with `complete = false` via `Task::new` and
appends exactly one encoded line with a trailing newline: the bytes already
present are unchanged (they are the prefix of the result) and the appended
suffix is the encoded new task plus the line terminator. -/
theorem c8_add_append_only (file name : List Char) (tags : Option (List (List Char)))
    (deadline : CivilTime) :
    (addTask file name tags deadline).take file.length = file ∧
    (addTask file name tags deadline).drop file.length =
      taskDisplay ⟨name, tags, deadline, false⟩ ++ ['\n'] := by
  constructor
  · rw [addTask, addTaskLogic, List.take_left]
  · rw [addTask, addTaskLogic, List.drop_left]
    rfl

/-- C9 counterexample: decoding a line whose name field is whitespace-only
produces a Task whose name is the empty string — Decode does not enforce a
non-empty name. -/
theorem c9_counterexample :
    decodeTask "|  | ugh | false | 2025-03-17T22:00:00+00:00 |".data =
      .ok ⟨[], some [['u', 'g', 'h']], ⟨2025, 3, 17, 22, 0, 0, 0⟩, false⟩ := by
  decide

/-- C9 (amended): `Task::from_str` performs no validation of the name: a line
whose name field trims to empty and whose deadline and complete fields parse
decodes successfully to a Task with the empty name. -/
theorem c9_no_name_validation (s tg cf dl : List Char) (cv : CivilTime) (off : Int) (b : Bool)
    (hf : fieldsOf s = [[], tg, cf, dl])
    (hdl : parseRfc3339Off (trim dl) = .ok (cv, off))
    (hb : parseBoolLit cf = .ok b) :
    decodeTask s = .ok ⟨[], if tagsPresent tg then some (splitCommaSpace tg) else none,
      toUtc cv off, b⟩ := by
  simp only [decodeTask, hf, hdl, hb]

/-- C9 witness: a concrete line with a three-space name field decodes to an
empty-name Task. -/
theorem c9_witness :
    decodeTask "|   | x | true | 2025-03-17T22:00:00+00:00 |".data =
      .ok ⟨[], if tagsPresent ['x'] then some (splitCommaSpace ['x']) else none,
        toUtc ⟨2025, 3, 17, 22, 0, 0, 0⟩ 0, true⟩ :=
  c9_no_name_validation _ ['x'] "true".data "2025-03-17T22:00:00+00:00".data
    ⟨2025, 3, 17, 22, 0, 0, 0⟩ 0 true (by decide) (by decide) (by decide)

/-- C10: the tags codec distinguishes `","` from `", "`: a tags field made
only of commas and whitespace fails the emptiness test (split on `","`) and
decodes to absent tags, while the field `a,b` (comma without a following
space) is non-blank and, split on `", "`, decodes to the single tag `a,b`. -/
theorem c10_tags_separators :
    (∀ f, (∀ ch ∈ f, ch = ',' ∨ ch.isWhitespace = true) → tagsPresent f = false) ∧
    decodeTask "| x | a,b | false | 2025-03-17T22:00:00+00:00 |".data =
      .ok ⟨['x'], some [['a', ',', 'b']], ⟨2025, 3, 17, 22, 0, 0, 0⟩, false⟩ ∧
    decodeTask "| x | , ,  | false | 2025-03-17T22:00:00+00:00 |".data =
      .ok ⟨['x'], none, ⟨2025, 3, 17, 22, 0, 0, 0⟩, false⟩ := by
  refine ⟨?_, by decide, by decide⟩
  intro f hf
  have hall : ∀ p ∈ splitChar ',' f, (!(trim p).isEmpty) = false := by
    intro p hp
    have hws : ∀ c ∈ p, c.isWhitespace = true := by
      intro c hc
      have hcf := mem_splitChar_subset ',' f p hp c hc
      rcases hf c hcf with h | h
      · exact absurd (h ▸ hc) (mem_splitChar_no_sep ',' f p hp)
      · exact h
    simp [trim_all_ws p hws]
  simp only [tagsPresent, Bool.not_eq_true']
  rw [List.filter_eq_nil_iff.mpr (by intro a ha; rw [hall a ha]; exact Bool.false_ne_true)]
  rfl

/-- C10 witness: the blank-tags rule at a concrete comma-and-space field. -/
theorem c10_witness : tagsPresent [',', ' ', ',', ' '] = false :=
  c10_tags_separators.1 [',', ' ', ',', ' '] (by decide)

end OnJob
